import Mathlib

/-!
Shallow embedding of the dobbi text-preprocessing library
(source file `dobbi/job.py` of the `iaramer/dobbi` repository) and
verification of the specification claims about it.

The library offers three chainable builders: `CleanJob` (delete matches),
`ReplaceJob` (substitute matches with tokens) and `CollectionJob` (tally
matches into counts).  Each builder holds one mutable field `self.f`, an
ordered list of step closures; here a builder is embedded as that list of
steps, and every operation that mutates the list returns the new list
explicitly.

Modelling conventions:
* Python strings are Lean `String`s (code points as `Char` lists).  The
  character classes `\w` and `\s` are modelled on their ASCII fragment,
  which covers every input used by the development.
* The regular expressions appearing in the source are each given a direct
  scanner with Python `re` semantics (leftmost, non-overlapping): the url
  pattern `https?://\S+`, the `@\w+` / `#\w+` word-tag patterns, the
  non-greedy `<.*?>` html pattern and the single-character class `[^\w\s]`.
  Caller-supplied patterns (the `regexp` step and the emoticon table
  entries) are interpreted on the alternation-of-literals fragment
  (`lit1|lit2|...` with no metacharacters); patterns outside the fragment
  are treated as failing with a pattern-syntax error, which is exactly how
  Python treats syntactically invalid patterns such as `"("`.
* Python `dict`s and `Counter`s are association lists with insertion-order
  semantics: assignment updates an existing key in place or appends.
* The emoji and emoticon tables live in `dobbi/collections/`, outside the
  embedded core; they are opaque ordered data and are passed around as an
  explicit `Tables` parameter, exactly as the specification treats them.
-/

namespace Dobbi

/-- ASCII fragment of Python's whitespace class `\s` (and of the
whitespace characters recognised by `str.split`). -/
def pyIsSpace (c : Char) : Bool :=
  c == ' ' || c == '\t' || c == '\n' || c == '\r' || c == '\x0b' || c == '\x0c'

/-- ASCII fragment of Python's word-character class `\w`:
letters, digits and the underscore. -/
def pyIsWord (c : Char) : Bool := c.isAlphanum || c == '_'

/-- Build a `String` back from a list of characters. -/
def strOf (l : List Char) : String := String.mk l

/-- `stripPre p s` returns the rest of `s` after the literal `p`,
when `p` is a prefix of `s`. -/
def stripPre : List Char → List Char → Option (List Char)
  | [], s => some s
  | _ :: _, [] => none
  | a :: p, b :: s => if a = b then stripPre p s else none

/-- A matcher tries to match a pattern at the head of the input and, on
success, returns the matched text and the remaining input. -/
abbrev Matcher := List Char → Option (List Char × List Char)

/-- Matcher for an ordered list of literal alternatives: the first
alternative that is a prefix of the input wins (Python's `re` tries the
alternatives of `a|b|...` left to right). -/
def firstAlt : List (List Char) → Matcher
  | [], _ => none
  | p :: ps, s =>
    match stripPre p s with
    | some r => some (p, r)
    | none => firstAlt ps s

/-- Matcher for the url pattern `https?://\S+`: the literal `http`, an
optional `s`, the literal `://`, then one or more non-space characters
(greedy). -/
def urlMatcher : Matcher := fun s =>
  match stripPre ['h', 't', 't', 'p'] s with
  | none => none
  | some r1 =>
    let hd : List Char × List Char :=
      match r1 with
      | 's' :: r => (['h', 't', 't', 'p', 's'], r)
      | _ => (['h', 't', 't', 'p'], r1)
    match stripPre [':', '/', '/'] hd.2 with
    | none => none
    | some r3 =>
      let body := r3.takeWhile (fun c => !pyIsSpace c)
      if body.isEmpty then none
      else some (hd.1 ++ [':', '/', '/'] ++ body, r3.dropWhile (fun c => !pyIsSpace c))

/-- Matcher for the word-tag patterns `@\w+` and `#\w+` (with `sym` the
leading symbol): the symbol followed by one or more word characters. -/
def tagMatcher (sym : Char) : Matcher := fun s =>
  match s with
  | [] => none
  | c :: rest =>
    if c = sym then
      let w := rest.takeWhile pyIsWord
      if w.isEmpty then none
      else some (c :: w, rest.dropWhile pyIsWord)
    else none

/-- Matcher for the html pattern `<.*?>`: a `<`, then a minimal run of
characters other than `>` (and other than a newline, which `.` does not
match), then `>`. -/
def htmlMatcher : Matcher := fun s =>
  match s with
  | '<' :: rest =>
    let mid := rest.takeWhile (fun c => !(c == '>') && !(c == '\n'))
    match rest.dropWhile (fun c => !(c == '>') && !(c == '\n')) with
    | '>' :: r2 => some ('<' :: (mid ++ ['>']), r2)
    | _ => none
  | _ => none

/-- Matcher for the single-character class `[^\w\s]`: one character that
is neither a word character nor whitespace. -/
def punctClassM : Matcher := fun s =>
  match s with
  | [] => none
  | c :: rest => if !pyIsWord c && !pyIsSpace c then some ([c], rest) else none

/-- Fuel-indexed engine for `re.sub`: scan left to right, replace each
non-overlapping match of the matcher with `repl`, advance one character
when the matcher fails.  An empty match is treated as no match (every
matcher in this development only produces non-empty matches). -/
def scanSubM (m : Matcher) (repl : List Char) : Nat → List Char → List Char
  | _, [] => []
  | 0, s => s
  | fuel + 1, c :: rest =>
    match m (c :: rest) with
    | some (mt, r2) =>
      if mt.isEmpty then c :: scanSubM m repl fuel rest
      else repl ++ scanSubM m repl fuel r2
    | none => c :: scanSubM m repl fuel rest

/-- Fuel-indexed engine for `re.findall`: collect the non-overlapping
matches left to right. -/
def scanFindM (m : Matcher) : Nat → List Char → List (List Char)
  | _, [] => []
  | 0, _ => []
  | fuel + 1, c :: rest =>
    match m (c :: rest) with
    | some (mt, r2) =>
      if mt.isEmpty then scanFindM m fuel rest
      else mt :: scanFindM m fuel r2
    | none => scanFindM m fuel rest

/-- `re.sub(pattern, repl, s)` for a matcher-represented pattern. -/
def reSubM (m : Matcher) (repl : String) (s : String) : String :=
  strOf (scanSubM m repl.toList (s.toList.length + 1) s.toList)

/-- `re.findall(pattern, s)` for a matcher-represented pattern. -/
def reFindM (m : Matcher) (s : String) : List String :=
  (scanFindM m (s.toList.length + 1) s.toList).map strOf

/-- Python `str.replace(old, new)`: replace every non-overlapping
occurrence of the literal `old`. -/
def pyReplaceAll (s old new : String) : String :=
  reSubM (firstAlt [old.toList]) new s

/-- Python `str.count(sub)`: number of non-overlapping occurrences. -/
def pyCount (s sub : String) : Nat := (reFindM (firstAlt [sub.toList]) s).length

/-- Metacharacters not supported by the literal/alternation pattern
fragment; a pattern containing one of them is treated as rejected. -/
def reMeta : List Char :=
  ['\\', '.', '^', '$', '*', '+', '?', '\x7b', '\x7d', '[', ']', '(', ')']

/-- Split a character list at every `|` (the alternation operator of the
supported pattern fragment); `acc` holds the current piece reversed. -/
def splitBar : List Char → List Char → List (List Char)
  | [], acc => [acc.reverse]
  | c :: rest, acc =>
    if c = '|' then acc.reverse :: splitBar rest []
    else splitBar rest (c :: acc)

/-- Split a caller-supplied pattern into its `|`-alternatives. -/
def parseAlts (pat : String) : List (List Char) :=
  splitBar pat.toList []

/-- Pattern validity on the supported fragment: no metacharacters and no
empty alternative.  The genuinely invalid pattern `"("` is rejected, as
`re.compile` rejects it. -/
def reOk (pat : String) : Bool :=
  pat.toList.all (fun c => !(decide (c ∈ reMeta))) &&
    (parseAlts pat).all (fun a => !a.isEmpty)

/-- `str.split()` helper: cut the character list at whitespace runs,
dropping empty pieces (`acc` holds the current word reversed). -/
def splitWsGo : List Char → List Char → List (List Char)
  | [], acc => if acc.isEmpty then [] else [acc.reverse]
  | c :: rest, acc =>
    if pyIsSpace c then
      if acc.isEmpty then splitWsGo rest [] else acc.reverse :: splitWsGo rest []
    else splitWsGo rest (c :: acc)

/-- The whitespace-collapse lambda `' '.join(x.split())` appended by
`execute`/`function`: split on whitespace runs, rejoin with single
spaces, trimming both ends. -/
def collapseWs (s : String) : String :=
  " ".intercalate ((splitWsGo s.toList []).map strOf)

/-- The lowercase lambda `x.lower()` (ASCII fragment). -/
def pyLower (s : String) : String := strOf (s.toList.map Char.toLower)

/-- A Python `Counter` restricted to what the collect steps build:
an insertion-ordered association list from match string to count. -/
abbrev Counter := List (String × Nat)

/-- The `ResultMap` of collect mode: label to (match to count). -/
abbrev ResultMap := List (String × Counter)

/-- Python `d[k]` lookup (as an `Option`). -/
def dictGet {α : Type} (d : List (String × α)) (k : String) : Option α :=
  (d.find? (fun p => p.1 = k)).map (fun p => p.2)

/-- Python `d[k] = v`: update the existing entry in place, preserving
insertion order, or append a new entry. -/
def dictUpd {α : Type} (d : List (String × α)) (k : String) (v : α) :
    List (String × α) :=
  if (d.find? (fun p => p.1 = k)).isSome then
    d.map (fun p => if p.1 = k then (k, v) else p)
  else d ++ [(k, v)]

/-- The keys of a dict, in order. -/
def keys {α : Type} (d : List (String × α)) : List String := d.map (fun p => p.1)

/-- Count stored in a counter for `k`, with `0` for an absent key. -/
def cnt (c : Counter) (k : String) : Nat := (dictGet c k).getD 0

/-- Count stored in a result map for label `t` and key `k`, with `0`
when either level is absent. -/
def cnt2 (m : ResultMap) (t k : String) : Nat :=
  ((dictGet m t).map (fun c => cnt c k)).getD 0

/-- `c[k] += v` on a counter (missing keys count as `0`, as for a
Python `Counter` or the explicit zero-insert in `batch_execute`). -/
def counterBump (c : Counter) (k : String) (v : Nat) : Counter :=
  match dictGet c k with
  | some v0 => dictUpd c k (v0 + v)
  | none => c ++ [(k, v)]

/-- `Counter(list-of-matches)`: tally a list of found matches. -/
def counterOf (ms : List String) : Counter :=
  ms.foldl (fun c k => counterBump c k 1) []

/-- The inner accumulation loop of `batch_execute`:
`for k, v in counter.items(): result[tag][k] += v`. -/
def addCounts (d c : Counter) : Counter :=
  c.foldl (fun d p => counterBump d p.1 p.2) d

/-- Sum of the values carried by the entries of `c` whose key is `k`
(used to reason about `addCounts`). -/
def sumCnt : Counter → String → Nat
  | [], _ => 0
  | p :: rest, k => (if p.1 = k then p.2 else 0) + sumCnt rest k

/-- The static emoji and emoticon tables imported from
`dobbi.collections`: opaque ordered pattern-to-label mappings.  Emoji
keys are literal substrings; emoticon keys are regular expressions
(interpreted here on the literal/alternation fragment). -/
structure Tables where
  emoji : List (String × String)
  emoticons : List (String × String)
deriving DecidableEq

/-- The errors a finalize call can surface: a pattern-syntax error from
`re` on an invalid pattern, or a `TypeError`-like failure when a step
receives a non-string value. -/
inductive PyError
  | patternSyntax
  | typeError
deriving DecidableEq

/-- A Python value passed to a finalize call: the library is normally
given strings but callers may pass other objects (modelled by `int`). -/
inductive PyVal
  | str (s : String)
  | int (n : Int)
deriving DecidableEq

/-- Python `str(v)`. -/
def pyStr : PyVal → String
  | .str s => s
  | .int n => toString n

/-- The control characters handled by the whitespace steps
(`['\t', '\n', '\r', '\v', '\f']` in the source). -/
def wsControl : List Char := ['\t', '\n', '\r', '\x0b', '\x0c']

/-! ## The collect builder (`CollectionJob`)

Each chain method of `CollectionJob` appends a closure
`str -> (tag, Counter)` to `self.f`; the closures are embedded as the
constructors of `ColStep` and their bodies as `ColStep.apply`. -/

/-- One chained step of a `CollectionJob`, as appended by the
corresponding chain method of `dobbi/job.py`. -/
inductive ColStep
  | regexp (pat : String)
  | url
  | nickname
  | hashtag
  | punctuation
  | whitespace
  | html
  | emoji
  | emoticon (ignoreEmoji ignoreUrl : Bool)
deriving DecidableEq

/-- The constant tag returned by each collect closure. -/
def ColStep.label : ColStep → String
  | .regexp _ => "regexp"
  | .url => "url"
  | .nickname => "nickname"
  | .hashtag => "hashtag"
  | .punctuation => "punctuation"
  | .whitespace => "whitespace"
  | .html => "html"
  | .emoji => "emoji"
  | .emoticon _ _ => "emoticon"

/-- The emoji pre-masking loop of the collect emoticon step
(`for e in reversed(list(EMOJI.keys())): s_ = s_.replace(e, ' ')`),
also the body of the clean emoji step. -/
def emojiMask (tbl : List (String × String)) (s : String) : String :=
  ((tbl.map (fun p => p.1)).reverse).foldl (fun s e => pyReplaceAll s e " ") s

/-- The forward counting loop of the collect emoticon step:
`for e in EMOTICONS: n = len(re.findall(e, s_)); if n > 0: c[EMOTICONS[e]] = n`.
An invalid table pattern surfaces as a pattern-syntax error, as
`re.findall` would raise. -/
def emoticonCount (s : String) : List (String × String) → Counter →
    Except PyError Counter
  | [], c => .ok c
  | (e, lbl) :: rest, c =>
    if reOk e then
      let n := (reFindM (firstAlt (parseAlts e)) s).length
      emoticonCount s rest (if 0 < n then dictUpd c lbl n else c)
    else .error .patternSyntax

/-- Apply one collect step to the input string: the body of the closure
appended by the corresponding chain method. -/
def ColStep.apply (T : Tables) : ColStep → String → Except PyError (String × Counter)
  | .regexp pat, s =>
    if reOk pat then
      .ok ("regexp", counterOf (reFindM (firstAlt (parseAlts pat)) s))
    else .error .patternSyntax
  | .url, s => .ok ("url", counterOf (reFindM urlMatcher s))
  | .nickname, s => .ok ("nickname", counterOf (reFindM (tagMatcher '@') s))
  | .hashtag, s => .ok ("hashtag", counterOf (reFindM (tagMatcher '#') s))
  | .punctuation, s => .ok ("punctuation", counterOf (reFindM punctClassM s))
  | .whitespace, s =>
    .ok ("whitespace",
      wsControl.foldl
        (fun c ch =>
          if decide (ch ∈ s.toList) then dictUpd c (strOf [ch]) (s.toList.count ch)
          else c)
        [])
  | .html, s => .ok ("html", counterOf (reFindM htmlMatcher s))
  | .emoji, s =>
    .ok ("emoji",
      T.emoji.foldl
        (fun c p =>
          let n := pyCount s p.1
          if 0 < n then dictUpd c p.2 n else c)
        [])
  | .emoticon ignoreEmoji ignoreUrl, s =>
    let s1 := if ignoreUrl then reSubM urlMatcher " " s else s
    let s2 := if ignoreEmoji then emojiMask T.emoji s1 else s1
    match emoticonCount s2 T.emoticons [] with
    | .ok c => .ok ("emoticon", c)
    | .error e => .error e

/-- The loop of `CollectionJob.execute`, carrying the `result` dict:
`for func in self.f: tag, counter = func(string); result[tag] = dict(counter)`. -/
def execC (T : Tables) : List ColStep → String → ResultMap → Except PyError ResultMap
  | [], _, r => .ok r
  | st :: rest, s, r =>
    match st.apply T s with
    | .ok p => execC T rest s (dictUpd r p.1 p.2)
    | .error e => .error e

/-- `CollectionJob.execute(string)`: run every step against the original
input and store each step's counter under its tag. -/
def CollectionJob.execute (T : Tables) (fs : List ColStep) (s : String) :
    Except PyError ResultMap :=
  execC T fs s []

/-- The inner loop of `CollectionJob.batch_execute` for one input string:
each step's counter is merged additively into `result[tag]`. -/
def batchInner (T : Tables) (s : String) : List ColStep → ResultMap →
    Except PyError ResultMap
  | [], r => .ok r
  | st :: rest, r =>
    match st.apply T s with
    | .ok p =>
      batchInner T s rest (dictUpd r p.1 (addCounts ((dictGet r p.1).getD []) p.2))
    | .error e => .error e

/-- The outer loop of `CollectionJob.batch_execute` over the inputs. -/
def batchGo (T : Tables) (fs : List ColStep) : List String → ResultMap →
    Except PyError ResultMap
  | [], r => .ok r
  | s :: ss, r =>
    match batchInner T s fs r with
    | .ok r2 => batchGo T fs ss r2
    | .error e => .error e

/-- `CollectionJob.batch_execute(strings)`: accumulate counts additively
across the whole batch into one result map. -/
def CollectionJob.batch_execute (T : Tables) (fs : List ColStep)
    (ss : List String) : Except PyError ResultMap :=
  batchGo T fs ss []

/-- `CollectionJob.regexp(pattern)`: append a step and return the
builder; the pattern is not inspected at chain time. -/
def CollectionJob.regexp (fs : List ColStep) (pat : String) : List ColStep :=
  fs ++ [ColStep.regexp pat]

/-- `CollectionJob.execute` as reached with an arbitrary Python value:
every collect closure applies a string operation (`re.findall`,
`str.count`, `in`) directly to the value, so the first step raises a
type error on a non-string input; with no steps the loop body never
runs and the empty dict is returned. -/
def CollectionJob.executeVal (T : Tables) (fs : List ColStep) (v : PyVal) :
    Except PyError ResultMap :=
  match v with
  | .str s => CollectionJob.execute T fs s
  | .int _ =>
    match fs with
    | [] => .ok []
    | _ :: _ => .error .typeError

/-! ## The clean builder (`CleanJob`)

Each chain method appends a closure `str -> str`; `execute` and
`function` additionally append the whitespace-collapse and the lowercase
lambdas when the corresponding flag is set, before running or capturing
the list.  The clean loop applies `func(str(string))`, coercing the
value at every application. -/

/-- One step of a `CleanJob`'s list `self.f`: the nine chain methods
plus the two lambdas appended by `execute`/`function`. -/
inductive CleanStep
  | regexp (pat : String)
  | url
  | nickname
  | hashtag
  | punctuation
  | whitespace
  | html
  | emoji
  | emoticon
  | collapse
  | lowerStep
deriving DecidableEq

/-- The character set deleted by `CleanJob.punctuation`: the characters
of the raw string `r'!\"#$%&\'()*+,-./:;<=>?@[\]^_` + backtick +
`{|}~'` passed to `str.maketrans` (the backslashes of the raw string
are literal characters; duplicates are irrelevant for deletion). -/
def cleanDelChars : List Char :=
  ['!', '\\', '"', '#', '$', '%', '&', '\\', '\x27', '(', ')', '*', '+',
   ',', '-', '.', '/', ':', ';', '<', '=', '>', '?', '@', '[', '\\', ']',
   '^', '_', '\x60', '\x7b', '|', '\x7d', '~']

/-- The whitespace-step loop shared by clean and replace:
`for ch in ['\t','\n','\r','\v','\f']: if ch in s_: s_ = s_.replace(ch, repl)`. -/
def wsLoop (repl : String) (s : String) : String :=
  wsControl.foldl
    (fun s ch => if decide (ch ∈ s.toList) then pyReplaceAll s (strOf [ch]) repl else s)
    s

/-- The clean emoticon loop:
`for e in reversed(list(EMOTICONS.keys())): s_ = re.sub(e, ' ', s_)`;
`subEach repl pats s` applies the substitutions in the order of `pats`. -/
def subEach (repl : String) : List String → String → Except PyError String
  | [], s => .ok s
  | e :: rest, s =>
    if reOk e then subEach repl rest (reSubM (firstAlt (parseAlts e)) repl s)
    else .error .patternSyntax

/-- Apply one clean step: the body of the closure appended by the
corresponding chain method of `CleanJob` (deletion semantics). -/
def CleanStep.apply (T : Tables) : CleanStep → String → Except PyError String
  | .regexp pat, s =>
    if reOk pat then .ok (reSubM (firstAlt (parseAlts pat)) "" s)
    else .error .patternSyntax
  | .url, s => .ok (reSubM urlMatcher "" s)
  | .nickname, s => .ok (reSubM (tagMatcher '@') "" s)
  | .hashtag, s => .ok (reSubM (tagMatcher '#') "" s)
  | .punctuation, s =>
    .ok (strOf (s.toList.filter (fun c => !(decide (c ∈ cleanDelChars)))))
  | .whitespace, s => .ok (wsLoop " " s)
  | .html, s => .ok (reSubM htmlMatcher "" s)
  | .emoji, s => .ok (emojiMask T.emoji s)
  | .emoticon, s => subEach " " ((T.emoticons.map (fun p => p.1)).reverse) s
  | .collapse, s => .ok (collapseWs s)
  | .lowerStep, s => .ok (pyLower s)

/-- The loop of `CleanJob.execute` and of the closure built by
`CleanJob.function`: `for func in self.f: string = func(str(string))` —
the value is coerced to its string representation at every step
application. -/
def runCleanVal (T : Tables) : List CleanStep → PyVal → Except PyError PyVal
  | [], v => .ok v
  | st :: rest, v =>
    match st.apply T (pyStr v) with
    | .ok s2 => runCleanVal T rest (.str s2)
    | .error e => .error e

/-- The step list after the flag-dependent appends performed by
`execute`/`function`: the collapse lambda when `rm_whitespace` is set,
then the lowercase lambda when `lower` is set. -/
def effCleanSteps (j : List CleanStep) (rmWhitespace lower : Bool) : List CleanStep :=
  let f1 := if rmWhitespace then j ++ [CleanStep.collapse] else j
  if lower then f1 ++ [CleanStep.lowerStep] else f1

/-- `CleanJob.execute(string, rm_whitespace, lower)`: append the flag
steps to `self.f` (a permanent mutation, returned as the second
component), then run the whole list over the input. -/
def CleanJob.execute (T : Tables) (j : List CleanStep) (v : PyVal)
    (rmWhitespace lower : Bool) : Except PyError PyVal × List CleanStep :=
  let f2 := effCleanSteps j rmWhitespace lower
  (runCleanVal T f2 v, f2)

/-- `CleanJob.function(rm_whitespace, lower)`: the builder's step list
after the one-time flag appends performed at compile time.  The returned
closure reads `self.f` live and only iterates it, so a call is
`callCleanFn` below. -/
def CleanJob.function (j : List CleanStep) (rmWhitespace lower : Bool) :
    List CleanStep :=
  effCleanSteps j rmWhitespace lower

/-- Calling the closure returned by `CleanJob.function`: the call reads
the current step list and performs no mutation, so the step list is
returned unchanged. -/
def callCleanFn (T : Tables) (st : List CleanStep) (v : PyVal) :
    Except PyError PyVal × List CleanStep :=
  (runCleanVal T st v, st)

/-- `CleanJob.regexp(pattern)`: append a step and return the builder;
the pattern is not inspected at chain time. -/
def CleanJob.regexp (j : List CleanStep) (pat : String) : List CleanStep :=
  j ++ [CleanStep.regexp pat]

/-! ## The replace builder (`ReplaceJob`)

Same shape as `CleanJob`, but each chain method takes a replacement
token, and neither `execute` nor the compiled closure coerces the value
with `str(...)`: the loop is `string = func(string)`. -/

/-- One step of a `ReplaceJob`'s list `self.f`, carrying the replacement
token passed to the chain method. -/
inductive RepStep
  | regexp (pat repl : String)
  | url (repl : String)
  | nickname (repl : String)
  | hashtag (repl : String)
  | punctuation (repl : String)
  | whitespace (repl : String)
  | html (repl : String)
  | emoji
  | emoticon
  | collapse
  | lowerStep
deriving DecidableEq

/-- The default replacement of `ReplaceJob.punctuation`
(`def punctuation(self, replacement=' ')` in the source). -/
def RepStep.punctuationDefault : String := " "

/-- The replace emoji loop:
`for e in reversed(list(EMOJI.keys())): s_ = s_.replace(e, ' ' + EMOJI[e] + ' ')`. -/
def emojiTokens (tbl : List (String × String)) (s : String) : String :=
  tbl.reverse.foldl (fun s p => pyReplaceAll s p.1 (" " ++ p.2 ++ " ")) s

/-- The replace emoticon loop:
`for e in reversed(list(EMOTICONS.keys())): s_ = re.sub(e, ' ' + EMOTICONS[e] + ' ', s_)`;
`subTokens pats s` applies the substitutions in the order of `pats`. -/
def subTokens : List (String × String) → String → Except PyError String
  | [], s => .ok s
  | (e, lbl) :: rest, s =>
    if reOk e then
      subTokens rest (reSubM (firstAlt (parseAlts e)) (" " ++ lbl ++ " ") s)
    else .error .patternSyntax

/-- Apply one replace step: the body of the closure appended by the
corresponding chain method of `ReplaceJob` (substitution semantics). -/
def RepStep.apply (T : Tables) : RepStep → String → Except PyError String
  | .regexp pat repl, s =>
    if reOk pat then .ok (reSubM (firstAlt (parseAlts pat)) repl s)
    else .error .patternSyntax
  | .url repl, s => .ok (reSubM urlMatcher repl s)
  | .nickname repl, s => .ok (reSubM (tagMatcher '@') repl s)
  | .hashtag repl, s => .ok (reSubM (tagMatcher '#') repl s)
  | .punctuation repl, s => .ok (reSubM punctClassM repl s)
  | .whitespace repl, s => .ok (wsLoop repl s)
  | .html repl, s => .ok (reSubM htmlMatcher repl s)
  | .emoji, s => .ok (emojiTokens T.emoji s)
  | .emoticon, s => subTokens T.emoticons.reverse s
  | .collapse, s => .ok (collapseWs s)
  | .lowerStep, s => .ok (pyLower s)

/-- The loop of `ReplaceJob.execute` and of the closure built by
`ReplaceJob.function`: `for func in self.f: string = func(string)` — no
`str(...)` coercion, so a step applied to a non-string value raises a
type error (every replace closure immediately applies a string
operation to its argument). -/
def runRepVal (T : Tables) : List RepStep → PyVal → Except PyError PyVal
  | [], v => .ok v
  | st :: rest, v =>
    match v with
    | .str s =>
      match st.apply T s with
      | .ok s2 => runRepVal T rest (.str s2)
      | .error e => .error e
    | .int _ => .error .typeError

/-- The flag-dependent appends of `ReplaceJob.execute`/`function`. -/
def effRepSteps (j : List RepStep) (rmWhitespace lower : Bool) : List RepStep :=
  let f1 := if rmWhitespace then j ++ [RepStep.collapse] else j
  if lower then f1 ++ [RepStep.lowerStep] else f1

/-- `ReplaceJob.execute(string, rm_whitespace, lower)`. -/
def ReplaceJob.execute (T : Tables) (j : List RepStep) (v : PyVal)
    (rmWhitespace lower : Bool) : Except PyError PyVal × List RepStep :=
  let f2 := effRepSteps j rmWhitespace lower
  (runRepVal T f2 v, f2)

/-- `ReplaceJob.function(rm_whitespace, lower)`: the post-compile step
list (the one-time appends). -/
def ReplaceJob.function (j : List RepStep) (rmWhitespace lower : Bool) :
    List RepStep :=
  effRepSteps j rmWhitespace lower

/-- Calling the closure returned by `ReplaceJob.function`: reads the
current step list, mutates nothing. -/
def callRepFn (T : Tables) (st : List RepStep) (v : PyVal) :
    Except PyError PyVal × List RepStep :=
  (runRepVal T st v, st)

/-- A small concrete table pair standing in for the opaque
`dobbi.collections` data in concrete evaluations. -/
def demoTables : Tables :=
  { emoji := [("e1", "TOKEN_EMOJI_ONE")], emoticons := [("xy", "TOKEN_EMOTICON_XY")] }

/-- All values of a counter are at least one. -/
def val1 (c : Counter) : Prop := ∀ q ∈ c, 1 ≤ q.2

/-- The total contribution of the steps of `fs`, evaluated on the
original input `s`, to the count of label `t` and key `k` (a failing
step contributes nothing; a failing step in fact aborts the loops). -/
def stepCnt (T : Tables) (s t k : String) : List ColStep → Nat
  | [] => 0
  | st :: rest =>
    (match st.apply T s with
     | .ok p => if p.1 = t then cnt p.2 k else 0
     | .error _ => 0) + stepCnt T s t k rest

/-- The punctuation set named by the specification claim for the clean
punctuation step, written out as the claim lists it (each of the 32
ASCII punctuation characters once). -/
def claimPunctChars : List Char :=
  ['!', '"', '#', '$', '%', '&', '\x27', '(', ')', '*', '+', ',', '-', '.', '/',
   ':', ';', '<', '=', '>', '?', '@', '[', '\\', ']', '^', '_', '\x60', '\x7b',
   '|', '\x7d', '~']

/-! ## Association-list lemmas (Python dict semantics) -/

theorem dictGet_nil {α : Type} (t : String) : dictGet ([] : List (String × α)) t = none := rfl

theorem dictGet_cons {α : Type} (a : String) (b : α) (d : List (String × α)) (t : String) :
    dictGet ((a, b) :: d) t = if a = t then some b else dictGet d t := by
  by_cases h : a = t <;> simp [dictGet, List.find?, h]

theorem dictGet_map_setk_ne {α : Type} (d : List (String × α)) (k t : String) (v : α)
    (h : t ≠ k) :
    dictGet (d.map (fun p => if p.1 = k then (k, v) else p)) t = dictGet d t := by
  induction d with
  | nil => rfl
  | cons a d ih =>
    by_cases ha : a.1 = k
    · have h1 : a.1 ≠ t := by rw [ha]; exact fun hh => h hh.symm
      calc dictGet ((a :: d).map (fun p => if p.1 = k then (k, v) else p)) t
          = dictGet ((k, v) :: d.map (fun p => if p.1 = k then (k, v) else p)) t := by
            simp [ha]
        _ = dictGet d t := by
            rw [dictGet_cons, if_neg (fun hh => h hh.symm), ih]
        _ = dictGet (a :: d) t := by
            rcases a with ⟨a1, a2⟩
            rw [dictGet_cons, if_neg (by simpa using h1)]
    · rcases a with ⟨a1, a2⟩
      simp only [List.map_cons, if_neg ha]
      rw [dictGet_cons, dictGet_cons, ih]

theorem dictUpd_of_found {α : Type} (d : List (String × α)) (k : String) (v : α)
    (h : (d.find? (fun p => p.1 = k)).isSome) :
    dictUpd d k v = d.map (fun p => if p.1 = k then (k, v) else p) := by
  simp [dictUpd, h]

theorem dictUpd_of_not_found {α : Type} (d : List (String × α)) (k : String) (v : α)
    (h : ¬ (d.find? (fun p => p.1 = k)).isSome) :
    dictUpd d k v = d ++ [(k, v)] := by
  simp [dictUpd, h]

theorem dictGet_dictUpd_self {α : Type} (d : List (String × α)) (k : String) (v : α) :
    dictGet (dictUpd d k v) k = some v := by
  induction d with
  | nil => simp [dictUpd, dictGet, List.find?]
  | cons a d ih =>
    rcases a with ⟨a1, a2⟩
    by_cases ha : a1 = k
    · rw [dictUpd_of_found _ _ _ (by simp [List.find?, ha])]
      simp only [List.map_cons, if_pos (by simpa using ha)]
      rw [dictGet_cons, if_pos rfl]
    · by_cases hd : (d.find? (fun p => p.1 = k)).isSome
      · rw [dictUpd_of_found _ _ _ (by simp [List.find?, ha, hd])]
        simp only [List.map_cons, if_neg (by simpa using ha)]
        rw [dictGet_cons, if_neg ha, ← dictUpd_of_found _ _ v hd, ih]
      · rw [dictUpd_of_not_found _ _ _ (by simp [List.find?, ha, hd])]
        rw [List.cons_append, dictGet_cons, if_neg ha, ← dictUpd_of_not_found _ _ v hd, ih]

theorem dictGet_dictUpd_ne {α : Type} (d : List (String × α)) (k t : String) (v : α)
    (h : t ≠ k) :
    dictGet (dictUpd d k v) t = dictGet d t := by
  induction d with
  | nil => simp [dictUpd, dictGet, List.find?, Ne.symm h]
  | cons a d ih =>
    rcases a with ⟨a1, a2⟩
    by_cases ha : a1 = k
    · rw [dictUpd_of_found _ _ _ (by simp [List.find?, ha])]
      exact dictGet_map_setk_ne _ _ _ _ h
    · by_cases hd : (d.find? (fun p => p.1 = k)).isSome
      · rw [dictUpd_of_found _ _ _ (by simp [List.find?, ha, hd])]
        simp only [List.map_cons, if_neg (by simpa using ha)]
        rw [dictGet_cons, dictGet_cons, ← dictUpd_of_found _ _ v hd, ih]
      · rw [dictUpd_of_not_found _ _ _ (by simp [List.find?, ha, hd])]
        rw [List.cons_append, dictGet_cons, dictGet_cons, ← dictUpd_of_not_found _ _ v hd, ih]

theorem keys_map_setk {α : Type} (d : List (String × α)) (k : String) (v : α) :
    keys (d.map (fun p => if p.1 = k then (k, v) else p)) = keys d := by
  induction d with
  | nil => rfl
  | cons a d ih =>
    by_cases ha : a.1 = k <;> simp [keys, ha] at ih ⊢ <;> simpa [keys, ha] using ih

theorem mem_keys_dictUpd {α : Type} (d : List (String × α)) (k t : String) (v : α) :
    t ∈ keys (dictUpd d k v) ↔ t = k ∨ t ∈ keys d := by
  by_cases hd : (d.find? (fun p => p.1 = k)).isSome
  · rw [dictUpd_of_found _ _ _ hd, keys_map_setk]
    constructor
    · exact fun h => Or.inr h
    · rintro (rfl | h)
      · rcases List.find?_isSome.mp hd with ⟨p, hp, hpk⟩
        have : p.1 = t := by simpa using hpk
        exact this ▸ List.mem_map_of_mem _ hp
      · exact h
  · rw [dictUpd_of_not_found _ _ _ hd]
    simp [keys, or_comm]

theorem mem_dictUpd {α : Type} (d : List (String × α)) (k : String) (v : α)
    (q : String × α) (hq : q ∈ dictUpd d k v) : q ∈ d ∨ q = (k, v) := by
  by_cases hd : (d.find? (fun p => p.1 = k)).isSome
  · rw [dictUpd_of_found _ _ _ hd] at hq
    rcases List.mem_map.mp hq with ⟨p, hp, hpq⟩
    by_cases hk : p.1 = k
    · right; rw [← hpq]; simp [hk]
    · left; rw [← hpq]; simpa [hk] using hp
  · rw [dictUpd_of_not_found _ _ _ hd] at hq
    rcases List.mem_append.mp hq with h | h
    · exact Or.inl h
    · exact Or.inr (by simpa using h)

theorem keysNodup_dictUpd {α : Type} (d : List (String × α)) (k : String) (v : α)
    (h : (keys d).Nodup) : (keys (dictUpd d k v)).Nodup := by
  by_cases hd : (d.find? (fun p => p.1 = k)).isSome
  · rw [dictUpd_of_found _ _ _ hd, keys_map_setk]; exact h
  · rw [dictUpd_of_not_found _ _ _ hd]
    have hk : k ∉ keys d := by
      intro hmem
      rcases List.mem_map.mp hmem with ⟨p, hp, hpk⟩
      have h2 := List.find?_eq_none.mp (Option.not_isSome_iff_eq_none.mp hd) p hp
      simp [hpk] at h2
    have hkeys : keys (d ++ [(k, v)]) = keys d ++ [k] := by simp [keys]
    rw [hkeys]
    refine List.Nodup.append h (List.nodup_singleton k) ?_
    intro x hx hxmem
    have hxk := List.mem_singleton.mp hxmem
    subst hxk
    exact hk hx

/-! ## Counter lemmas -/

theorem cnt_nil (t : String) : cnt [] t = 0 := rfl

theorem dictGet_append_right {α : Type} (d1 d2 : List (String × α)) (t : String)
    (h : dictGet d1 t = none) : dictGet (d1 ++ d2) t = dictGet d2 t := by
  unfold dictGet at *
  rw [List.find?_append]
  rcases hf : d1.find? (fun p => p.1 = t) with _ | p
  · rw [hf]
    rfl
  · simp [hf] at h

theorem dictGet_append_left {α : Type} (d1 d2 : List (String × α)) (t : String)
    (p : α) (h : dictGet d1 t = some p) : dictGet (d1 ++ d2) t = some p := by
  unfold dictGet at *
  rw [List.find?_append]
  rcases hf : d1.find? (fun p => p.1 = t) with _ | q
  · simp [hf] at h
  · simpa [hf] using h

theorem cnt_counterBump (c : Counter) (k : String) (v : Nat) (t : String) :
    cnt (counterBump c k v) t = cnt c t + (if t = k then v else 0) := by
  unfold counterBump
  rcases hg : dictGet c k with _ | v0
  · show cnt (c ++ [(k, v)]) t = cnt c t + (if t = k then v else 0)
    by_cases ht : t = k
    · subst ht
      have h1 : dictGet (c ++ [(t, v)]) t = some v := by
        rw [dictGet_append_right c [(t, v)] t hg, dictGet_cons, if_pos rfl]
      simp [cnt, h1, hg]
    · have h1 : dictGet (c ++ [(k, v)]) t = dictGet c t := by
        rcases hct : dictGet c t with _ | q
        · rw [dictGet_append_right c [(k, v)] t hct, dictGet_cons, if_neg (Ne.symm ht)]
          rfl
        · exact dictGet_append_left c [(k, v)] t q hct
      simp [cnt, h1, ht]
  · show cnt (dictUpd c k (v0 + v)) t = cnt c t + (if t = k then v else 0)
    by_cases ht : t = k
    · subst ht
      simp [cnt, dictGet_dictUpd_self, hg]
    · simp [cnt, dictGet_dictUpd_ne c k t _ ht, ht]

theorem cnt_addCounts (d c : Counter) (t : String) :
    cnt (addCounts d c) t = cnt d t + sumCnt c t := by
  induction c generalizing d with
  | nil => simp [addCounts, sumCnt]
  | cons p rest ih =>
    have hstep : addCounts d (p :: rest) = addCounts (counterBump d p.1 p.2) rest := by
      simp [addCounts]
    rw [hstep, ih, cnt_counterBump, sumCnt]
    by_cases ht : t = p.1
    · subst ht
      simp only [if_pos rfl]
      omega
    · simp only [if_neg ht, if_neg (fun h => ht (Eq.symm h))]
      omega

theorem sumCnt_eq_zero (c : Counter) (t : String) (h : ∀ p ∈ c, p.1 ≠ t) :
    sumCnt c t = 0 := by
  induction c with
  | nil => rfl
  | cons p rest ih =>
    rw [sumCnt, if_neg (h p (List.mem_cons_self p rest)),
      ih (fun q hq => h q (List.mem_cons_of_mem p hq))]

theorem sumCnt_eq_cnt (c : Counter) (t : String) (h : (keys c).Nodup) :
    sumCnt c t = cnt c t := by
  induction c with
  | nil => rfl
  | cons p rest ih =>
    rcases p with ⟨p1, p2⟩
    have hk : keys ((p1, p2) :: rest) = p1 :: keys rest := rfl
    rw [hk] at h
    have hnd := List.nodup_cons.mp h
    by_cases ht : p1 = t
    · have hz : sumCnt rest t = 0 := by
        refine sumCnt_eq_zero rest t (fun q hq hqt => ?_)
        apply hnd.1
        have hmem : q.1 ∈ keys rest := List.mem_map_of_mem (fun r => r.1) hq
        rw [hqt] at hmem
        rw [ht]
        exact hmem
      rw [sumCnt, hz]
      simp [cnt, dictGet_cons, ht]
    · rw [sumCnt]
      simp only [if_neg ht, Nat.zero_add]
      rw [ih hnd.2]
      simp [cnt, dictGet_cons, ht]

theorem keysNodup_counterBump (c : Counter) (k : String) (v : Nat)
    (h : (keys c).Nodup) : (keys (counterBump c k v)).Nodup := by
  unfold counterBump
  rcases hg : dictGet c k with _ | v0
  · have hk : k ∉ keys c := by
      intro hmem
      rcases List.mem_map.mp hmem with ⟨p, hp, hpk⟩
      unfold dictGet at hg
      have := List.find?_eq_none.mp (by
        rcases hf : c.find? (fun p => p.1 = k) with _ | q
        · rfl
        · simp [hf] at hg) p hp
      simp [hpk] at this
    have hkeys : keys (c ++ [(k, v)]) = keys c ++ [k] := by simp [keys]
    rw [hkeys]
    refine List.Nodup.append h (List.nodup_singleton k) ?_
    intro x hx hxmem
    have hxk := List.mem_singleton.mp hxmem
    subst hxk
    exact hk hx
  · exact keysNodup_dictUpd c k _ h

/-- A fold whose every step preserves key-distinctness preserves it. -/
theorem keysNodup_foldl {β : Type} (l : List β) (F : Counter → β → Counter)
    (hF : ∀ c b, (keys c).Nodup → (keys (F c b)).Nodup)
    (c : Counter) (hc : (keys c).Nodup) : (keys (l.foldl F c)).Nodup := by
  induction l generalizing c with
  | nil => exact hc
  | cons b rest ih => exact ih (F c b) (hF c b hc)

theorem counterOf_keysNodup (ms : List String) : (keys (counterOf ms)).Nodup :=
  keysNodup_foldl ms _ (fun c k hc => keysNodup_counterBump c k 1 hc) [] List.nodup_nil

theorem val1_nil : val1 [] := by intro q hq; cases hq

theorem val1_dictUpd (c : Counter) (k : String) (v : Nat)
    (hc : val1 c) (hv : 1 ≤ v) : val1 (dictUpd c k v) := by
  intro q hq
  rcases mem_dictUpd c k v q hq with h | h
  · exact hc q h
  · rw [h]; exact hv

theorem val1_counterBump (c : Counter) (k : String) (v : Nat)
    (hc : val1 c) (hv : 1 ≤ v) : val1 (counterBump c k v) := by
  unfold counterBump
  rcases hg : dictGet c k with _ | v0
  · intro q hq
    rcases List.mem_append.mp hq with h | h
    · exact hc q h
    · have : q = (k, v) := by simpa using h
      rw [this]; exact hv
  · refine val1_dictUpd c k (v0 + v) hc ?_
    omega

theorem val1_foldl {β : Type} (l : List β) (F : Counter → β → Counter)
    (hF : ∀ c b, val1 c → val1 (F c b))
    (c : Counter) (hc : val1 c) : val1 (l.foldl F c) := by
  induction l generalizing c with
  | nil => exact hc
  | cons b rest ih => exact ih (F c b) (hF c b hc)

theorem counterOf_val1 (ms : List String) : val1 (counterOf ms) :=
  val1_foldl ms _ (fun c k hc => val1_counterBump c k 1 hc (le_refl 1)) [] val1_nil

/-! ## Step-level lemmas for the collect builder -/

theorem emoticonCount_keysNodup (s : String) (tbl : List (String × String))
    (c c2 : Counter) (h : emoticonCount s tbl c = .ok c2)
    (hc : (keys c).Nodup) : (keys c2).Nodup := by
  induction tbl generalizing c with
  | nil =>
    rw [emoticonCount] at h
    cases h
    exact hc
  | cons p rest ih =>
    rcases p with ⟨e, lbl⟩
    rw [emoticonCount] at h
    by_cases he : reOk e
    · rw [if_pos he] at h
      refine ih _ h ?_
      by_cases hn : 0 < (reFindM (firstAlt (parseAlts e)) s).length
      · rw [if_pos hn]
        exact keysNodup_dictUpd c lbl _ hc
      · rw [if_neg hn]
        exact hc
    · rw [if_neg he] at h
      cases h

theorem emoticonCount_val1 (s : String) (tbl : List (String × String))
    (c c2 : Counter) (h : emoticonCount s tbl c = .ok c2)
    (hc : val1 c) : val1 c2 := by
  induction tbl generalizing c with
  | nil =>
    rw [emoticonCount] at h
    cases h
    exact hc
  | cons p rest ih =>
    rcases p with ⟨e, lbl⟩
    rw [emoticonCount] at h
    by_cases he : reOk e
    · rw [if_pos he] at h
      refine ih _ h ?_
      by_cases hn : 0 < (reFindM (firstAlt (parseAlts e)) s).length
      · rw [if_pos hn]
        exact val1_dictUpd c lbl _ hc hn
      · rw [if_neg hn]
        exact hc
    · rw [if_neg he] at h
      cases h

/-- Every collect closure returns its constant tag. -/
theorem ColStep.apply_fst (T : Tables) (st : ColStep) (s : String)
    (p : String × Counter) (h : st.apply T s = .ok p) : p.1 = st.label := by
  cases st with
  | regexp pat =>
    rw [ColStep.apply] at h
    by_cases hre : reOk pat
    · rw [if_pos hre] at h
      cases h
      rfl
    · rw [if_neg hre] at h
      cases h
  | emoticon ie iu =>
    rw [ColStep.apply] at h
    rcases hec : emoticonCount
        (if ie then
          emojiMask T.emoji (if iu then reSubM urlMatcher " " s else s)
         else (if iu then reSubM urlMatcher " " s else s)) T.emoticons [] with _ | e
    · simp only [hec] at h
      cases h
    · simp only [hec] at h
      cases h
      rfl
  | url => cases h; rfl
  | nickname => cases h; rfl
  | hashtag => cases h; rfl
  | punctuation => cases h; rfl
  | whitespace => cases h; rfl
  | html => cases h; rfl
  | emoji => cases h; rfl

/-- Every collect closure produces a counter with distinct keys (it is a
Python `Counter`/`dict`). -/
theorem ColStep.apply_keysNodup (T : Tables) (st : ColStep) (s : String)
    (p : String × Counter) (h : st.apply T s = .ok p) : (keys p.2).Nodup := by
  cases st with
  | regexp pat =>
    rw [ColStep.apply] at h
    by_cases hre : reOk pat
    · rw [if_pos hre] at h
      cases h
      exact counterOf_keysNodup _
    · rw [if_neg hre] at h
      cases h
  | emoticon ie iu =>
    rw [ColStep.apply] at h
    rcases hec : emoticonCount
        (if ie then
          emojiMask T.emoji (if iu then reSubM urlMatcher " " s else s)
         else (if iu then reSubM urlMatcher " " s else s)) T.emoticons [] with _ | e
    · simp only [hec] at h
      cases h
    · simp only [hec] at h
      cases h
      exact emoticonCount_keysNodup _ _ _ _ hec List.nodup_nil
  | url => cases h; exact counterOf_keysNodup _
  | nickname => cases h; exact counterOf_keysNodup _
  | hashtag => cases h; exact counterOf_keysNodup _
  | punctuation => cases h; exact counterOf_keysNodup _
  | whitespace =>
    cases h
    have hW : (keys (wsControl.foldl
        (fun c ch =>
          if decide (ch ∈ s.toList) then dictUpd c (strOf [ch]) (s.toList.count ch)
          else c)
        [])).Nodup := by
      refine keysNodup_foldl wsControl _ (fun c ch hc => ?_) [] List.nodup_nil
      split
      next => exact keysNodup_dictUpd c (strOf [ch]) (s.toList.count ch) hc
      next => exact hc
    exact hW
  | html => cases h; exact counterOf_keysNodup _
  | emoji =>
    cases h
    have hE : (keys (T.emoji.foldl
        (fun c p =>
          let n := pyCount s p.1
          if 0 < n then dictUpd c p.2 n else c)
        [])).Nodup := by
      refine keysNodup_foldl T.emoji _ (fun c q hc => ?_) [] List.nodup_nil
      show (keys (if 0 < pyCount s q.1 then dictUpd c q.2 (pyCount s q.1) else c)).Nodup
      split
      next => exact keysNodup_dictUpd c q.2 (pyCount s q.1) hc
      next => exact hc
    exact hE

/-- Every count stored by a collect closure is at least one. -/
theorem ColStep.apply_val1 (T : Tables) (st : ColStep) (s : String)
    (p : String × Counter) (h : st.apply T s = .ok p) : val1 p.2 := by
  cases st with
  | regexp pat =>
    rw [ColStep.apply] at h
    by_cases hre : reOk pat
    · rw [if_pos hre] at h
      cases h
      exact counterOf_val1 _
    · rw [if_neg hre] at h
      cases h
  | emoticon ie iu =>
    rw [ColStep.apply] at h
    rcases hec : emoticonCount
        (if ie then
          emojiMask T.emoji (if iu then reSubM urlMatcher " " s else s)
         else (if iu then reSubM urlMatcher " " s else s)) T.emoticons [] with _ | e
    · simp only [hec] at h
      cases h
    · simp only [hec] at h
      cases h
      exact emoticonCount_val1 _ _ _ _ hec val1_nil
  | url => cases h; exact counterOf_val1 _
  | nickname => cases h; exact counterOf_val1 _
  | hashtag => cases h; exact counterOf_val1 _
  | punctuation => cases h; exact counterOf_val1 _
  | whitespace =>
    cases h
    have hW : val1 (wsControl.foldl
        (fun c ch =>
          if decide (ch ∈ s.toList) then dictUpd c (strOf [ch]) (s.toList.count ch)
          else c)
        []) := by
      refine val1_foldl wsControl _ (fun c ch hc => ?_) [] val1_nil
      split
      next hm =>
        exact val1_dictUpd c (strOf [ch]) (s.toList.count ch) hc
          (List.count_pos_iff.mpr (of_decide_eq_true hm))
      next => exact hc
    exact hW
  | html => cases h; exact counterOf_val1 _
  | emoji =>
    cases h
    have hE : val1 (T.emoji.foldl
        (fun c p =>
          let n := pyCount s p.1
          if 0 < n then dictUpd c p.2 n else c)
        []) := by
      refine val1_foldl T.emoji _ (fun c q hc => ?_) [] val1_nil
      show val1 (if 0 < pyCount s q.1 then dictUpd c q.2 (pyCount s q.1) else c)
      split
      next hm => exact val1_dictUpd c q.2 (pyCount s q.1) hc hm
      next => exact hc
    exact hE

/-! ## Lemmas about the collect finalize loops -/

theorem stepCnt_zero (T : Tables) (s t k : String) (fs : List ColStep)
    (h : ∀ st ∈ fs, st.label ≠ t) : stepCnt T s t k fs = 0 := by
  induction fs with
  | nil => rfl
  | cons st rest ih =>
    rw [stepCnt, ih (fun st2 h2 => h st2 (List.mem_cons_of_mem st h2))]
    rcases hap : st.apply T s with e | p
    · rfl
    · have := ColStep.apply_fst T st s p hap
      simp [this, h st (List.mem_cons_self st rest)]

theorem execC_cons (T : Tables) (st : ColStep) (rest : List ColStep)
    (s : String) (r : ResultMap) :
    execC T (st :: rest) s r =
      match st.apply T s with
      | .ok p => execC T rest s (dictUpd r p.1 p.2)
      | .error e => .error e := rfl

theorem execC_append (T : Tables) (fs1 fs2 : List ColStep) (s : String)
    (r : ResultMap) :
    execC T (fs1 ++ fs2) s r =
      match execC T fs1 s r with
      | .ok r1 => execC T fs2 s r1
      | .error e => .error e := by
  induction fs1 generalizing r with
  | nil => rfl
  | cons st rest ih =>
    rw [List.cons_append, execC_cons, execC_cons]
    rcases hap : st.apply T s with e | p
    · rfl
    · exact ih (dictUpd r p.1 p.2)

/-- Steps whose label differs from `t` never touch the entry of `t`. -/
theorem execC_get_of_labels_ne (T : Tables) (fs : List ColStep) (s t : String)
    (r m : ResultMap) (hl : ∀ st ∈ fs, st.label ≠ t)
    (h : execC T fs s r = .ok m) : dictGet m t = dictGet r t := by
  induction fs generalizing r with
  | nil =>
    rw [execC] at h
    cases h
    rfl
  | cons st rest ih =>
    rw [execC_cons] at h
    rcases hap : st.apply T s with e | p
    · rw [hap] at h
      cases h
    · rw [hap] at h
      have htag : p.1 = st.label := ColStep.apply_fst T st s p hap
      have hne : t ≠ p.1 := by
        rw [htag]
        exact fun hh => hl st (List.mem_cons_self st rest) hh.symm
      rw [ih (dictUpd r p.1 p.2) (fun st2 h2 => hl st2 (List.mem_cons_of_mem st h2)) h]
      exact dictGet_dictUpd_ne r p.1 t p.2 hne

/-- The counts reached through `execute`: with pairwise distinct labels,
each label's entry is exactly the counter of the step carrying it, so
`cnt2` equals the per-label contribution over the original input. -/
theorem exec_cnt2 (T : Tables) (s : String) (fs : List ColStep)
    (hnd : (fs.map ColStep.label).Nodup) (r m : ResultMap) (t k : String)
    (h : execC T fs s r = .ok m) :
    cnt2 m t k =
      if t ∈ fs.map ColStep.label then stepCnt T s t k fs else cnt2 r t k := by
  induction fs generalizing r with
  | nil =>
    rw [execC] at h
    cases h
    simp
  | cons st rest ih =>
    have hk : (st :: rest).map ColStep.label = st.label :: rest.map ColStep.label := rfl
    rw [hk] at hnd
    have hnd2 := List.nodup_cons.mp hnd
    rw [execC_cons] at h
    rcases hap : st.apply T s with e | p
    · rw [hap] at h
      cases h
    · rw [hap] at h
      have htag : p.1 = st.label := ColStep.apply_fst T st s p hap
      have hrec := ih hnd2.2 (dictUpd r p.1 p.2) h
      have hsc : stepCnt T s t k (st :: rest) =
          (if p.1 = t then cnt p.2 k else 0) + stepCnt T s t k rest := by
        rw [stepCnt, hap]
      by_cases hmem : t ∈ rest.map ColStep.label
      · have hne : st.label ≠ t := by
          intro hh
          refine hnd2.1 ?_
          rw [hh]
          exact hmem
        have hmem2 : t ∈ (st :: rest).map ColStep.label :=
          List.mem_cons_of_mem _ hmem
        rw [hrec, if_pos hmem, if_pos hmem2, hsc]
        have hne2 : ¬ p.1 = t := by
          rw [htag]
          exact hne
        rw [if_neg hne2, Nat.zero_add]
      · by_cases hts : t = st.label
        · have hmem2 : t ∈ (st :: rest).map ColStep.label := by
            rw [hk, hts]
            exact List.mem_cons_self _ _
          have hz : stepCnt T s t k rest = 0 := by
            refine stepCnt_zero T s t k rest (fun st2 h2 hlab => ?_)
            refine hmem ?_
            rw [← hlab]
            exact List.mem_map_of_mem ColStep.label h2
          have htp : t = p.1 := by
            rw [hts, htag]
          have hget : dictGet (dictUpd r p.1 p.2) t = some p.2 := by
            rw [htp]
            exact dictGet_dictUpd_self r p.1 p.2
          have hfin : cnt2 (dictUpd r p.1 p.2) t k = cnt p.2 k := by
            unfold cnt2
            rw [hget]
            rfl
          rw [hrec, if_neg hmem, if_pos hmem2, hsc, hz, hfin, if_pos htp.symm,
            Nat.add_zero]
        · have hmem2 : t ∉ (st :: rest).map ColStep.label := by
            intro hh
            rw [hk] at hh
            rcases List.mem_cons.mp hh with hh1 | hh1
            · exact hts hh1
            · exact hmem hh1
          rw [hrec, if_neg hmem, if_neg hmem2]
          have hget : dictGet (dictUpd r p.1 p.2) t = dictGet r t := by
            refine dictGet_dictUpd_ne r p.1 t p.2 ?_
            rw [htag]
            exact hts
          simp [cnt2, hget]

/-- The counts reached through one input of `batch_execute`: the entry
of every label/key pair grows by the total step contribution on `s`. -/
theorem batchInner_cnt2 (T : Tables) (s : String) (fs : List ColStep)
    (r b : ResultMap) (t k : String) (h : batchInner T s fs r = .ok b) :
    cnt2 b t k = cnt2 r t k + stepCnt T s t k fs := by
  induction fs generalizing r with
  | nil =>
    rw [batchInner] at h
    cases h
    rw [stepCnt]
    omega
  | cons st rest ih =>
    rw [batchInner] at h
    rcases hap : st.apply T s with e | p
    · rw [hap] at h
      cases h
    · rw [hap] at h
      have hrec := ih _ h
      have hsc : stepCnt T s t k (st :: rest) =
          (if p.1 = t then cnt p.2 k else 0) + stepCnt T s t k rest := by
        rw [stepCnt, hap]
      have hstep :
          cnt2 (dictUpd r p.1 (addCounts ((dictGet r p.1).getD []) p.2)) t k =
            cnt2 r t k + (if p.1 = t then cnt p.2 k else 0) := by
        by_cases ht : p.1 = t
        · subst ht
          have hget := dictGet_dictUpd_self r p.1 (addCounts ((dictGet r p.1).getD []) p.2)
          have hnd := ColStep.apply_keysNodup T st s p hap
          have hcc : cnt (addCounts ((dictGet r p.1).getD []) p.2) k =
              cnt ((dictGet r p.1).getD []) k + cnt p.2 k := by
            rw [cnt_addCounts, sumCnt_eq_cnt p.2 k hnd]
          have hbase : cnt ((dictGet r p.1).getD []) k = cnt2 r p.1 k := by
            rcases hr : dictGet r p.1 with _ | d0
            · simp [cnt2, hr, cnt_nil]
            · simp [cnt2, hr]
          have hfin : cnt2 (dictUpd r p.1 (addCounts ((dictGet r p.1).getD []) p.2)) p.1 k
              = cnt (addCounts ((dictGet r p.1).getD []) p.2) k := by
            unfold cnt2
            rw [hget]
            rfl
          rw [hfin, hcc, hbase]
          simp
        · have hget := dictGet_dictUpd_ne r p.1 t (addCounts ((dictGet r p.1).getD []) p.2)
            (fun hh => ht hh.symm)
          simp [cnt2, hget, ht]
      rw [hrec, hsc, hstep]
      omega

/-- `batch_execute` over the two-element batch `[s, s]`. -/
theorem batch_pair_cnt2 (T : Tables) (fs : List ColStep) (s : String)
    (b : ResultMap) (t k : String)
    (h : CollectionJob.batch_execute T fs [s, s] = .ok b) :
    cnt2 b t k = 2 * stepCnt T s t k fs := by
  rw [CollectionJob.batch_execute] at h
  replace h : (match batchInner T s fs [] with
      | .ok r2 => batchGo T fs [s] r2
      | .error e => (.error e : Except PyError ResultMap)) = .ok b := h
  rcases h1 : batchInner T s fs [] with e | r1
  · rw [h1] at h
    exact Except.noConfusion h
  · rw [h1] at h
    replace h : (match batchInner T s fs r1 with
        | .ok r2 => batchGo T fs [] r2
        | .error e => (.error e : Except PyError ResultMap)) = .ok b := h
    rcases h2 : batchInner T s fs r1 with e | r2
    · rw [h2] at h
      exact Except.noConfusion h
    · rw [h2] at h
      replace h : Except.ok r2 = Except.ok b := h
      cases h
      have e1 := batchInner_cnt2 T s fs [] r1 t k h1
      have e2 := batchInner_cnt2 T s fs r1 b t k h2
      have e0 : cnt2 ([] : ResultMap) t k = 0 := rfl
      rw [e2, e1, e0]
      omega

/-! ## Claim theorems -/

/-- C1, counterexample: the claim promises exact doubling for *any*
composition of chained steps, but with two chained `whitespace` steps
(both labelled `whitespace`) on the input `"\t"`, `execute` stores the
count 1 (the second step's dict overwrites the first) while
`batch_execute(["\t", "\t"])` accumulates all four contributions, so the
batch count is 4, not double of 1. -/
theorem C1_claim_counterexample :
    CollectionJob.execute demoTables [ColStep.whitespace, ColStep.whitespace] "\t" =
      .ok [("whitespace", [("\t", 1)])] ∧
    CollectionJob.batch_execute demoTables [ColStep.whitespace, ColStep.whitespace]
      ["\t", "\t"] = .ok [("whitespace", [("\t", 4)])] ∧
    cnt2 [("whitespace", [("\t", 4)])] "whitespace" "\t" ≠
      2 * cnt2 [("whitespace", [("\t", 1)])] "whitespace" "\t" := by
  refine ⟨rfl, rfl, ?_⟩
  decide

/-- C1, amended: for a `CollectionJob` whose chained steps carry
pairwise distinct labels, `batch_execute([s, s])` returns a ResultMap in
which every label/key pair has exactly double the count that a single
`execute(s)` call produces for that pair. -/
theorem C1_batch_execute_doubles (T : Tables) (fs : List ColStep) (s : String)
    (m b : ResultMap) (hnd : (fs.map ColStep.label).Nodup)
    (hm : CollectionJob.execute T fs s = .ok m)
    (hb : CollectionJob.batch_execute T fs [s, s] = .ok b) :
    ∀ t k, cnt2 b t k = 2 * cnt2 m t k := by
  intro t k
  have hbb := batch_pair_cnt2 T fs s b t k hb
  have hmm := exec_cnt2 T s fs hnd [] m t k hm
  rw [hbb, hmm]
  by_cases hmem : t ∈ fs.map ColStep.label
  · rw [if_pos hmem]
  · rw [if_neg hmem]
    have hz : stepCnt T s t k fs = 0 := by
      refine stepCnt_zero T s t k fs (fun st h2 hlab => ?_)
      exact hmem (hlab ▸ List.mem_map_of_mem ColStep.label h2)
    rw [hz]
    rfl

theorem C1_batch_execute_doubles_witness :
    (([ColStep.hashtag, ColStep.whitespace].map ColStep.label).Nodup ∧
      CollectionJob.execute demoTables [ColStep.hashtag, ColStep.whitespace] "#a\tb" =
        .ok [("hashtag", [("#a", 1)]), ("whitespace", [("\t", 1)])] ∧
      CollectionJob.batch_execute demoTables [ColStep.hashtag, ColStep.whitespace]
        ["#a\tb", "#a\tb"] =
        .ok [("hashtag", [("#a", 2)]), ("whitespace", [("\t", 2)])]) ∧
    cnt2 [("hashtag", [("#a", 2)]), ("whitespace", [("\t", 2)])] "hashtag" "#a" =
      2 * cnt2 [("hashtag", [("#a", 1)]), ("whitespace", [("\t", 1)])] "hashtag" "#a" :=
  ⟨⟨by decide, rfl, rfl⟩,
    C1_batch_execute_doubles demoTables [ColStep.hashtag, ColStep.whitespace] "#a\tb"
      [("hashtag", [("#a", 1)]), ("whitespace", [("\t", 1)])]
      [("hashtag", [("#a", 2)]), ("whitespace", [("\t", 2)])]
      (by decide) rfl rfl "hashtag" "#a"⟩

/-- C2, counterexample: the claim promises, for *every* CollectionJob,
a mapping from each step's label to that step's match-to-count dict; but
with the duplicate-label chain `[regexp "a", regexp "b"]` on `"a"`, the
first step produces `{"a": 1}` on the original input while `execute`
returns `{"regexp": {}}` (the second step's empty dict replaces the
first step's entry), so the entry at the first step's label is not that
step's counts. -/
theorem C2_claim_counterexample :
    ColStep.apply demoTables (ColStep.regexp "a") "a" = .ok ("regexp", [("a", 1)]) ∧
    ColStep.regexp "a" ∈ [ColStep.regexp "a", ColStep.regexp "b"] ∧
    CollectionJob.execute demoTables [ColStep.regexp "a", ColStep.regexp "b"] "a" =
      .ok [("regexp", [])] ∧
    dictGet [("regexp", ([] : Counter))] (ColStep.label (ColStep.regexp "a")) ≠
      some [("a", 1)] := by
  refine ⟨rfl, by decide, rfl, ?_⟩
  decide

/-- C2, amended: `CollectionJob.execute` evaluates every chained step
against the original, unmodified input (no step sees another step's
output), and — provided the chained steps carry pairwise distinct
labels — the ResultMap maps each step's label to exactly the
match-to-count dict that the step produces on that original input
(with duplicate labels, the later step's dict replaces the earlier
one's). -/
theorem C2_execute_original_input (T : Tables) (fs : List ColStep) (s : String)
    (m : ResultMap) (st : ColStep) (p : String × Counter)
    (hnd : (fs.map ColStep.label).Nodup)
    (hm : CollectionJob.execute T fs s = .ok m)
    (hst : st ∈ fs) (hap : st.apply T s = .ok p) :
    dictGet m st.label = some p.2 := by
  rcases List.append_of_mem hst with ⟨fs1, fs2, rfl⟩
  rw [CollectionJob.execute, execC_append] at hm
  rcases h1 : execC T fs1 s [] with e | r1
  · rw [h1] at hm
    exact Except.noConfusion hm
  · rw [h1] at hm
    replace hm : execC T (st :: fs2) s r1 = .ok m := hm
    rw [execC_cons, hap] at hm
    replace hm : execC T fs2 s (dictUpd r1 p.1 p.2) = .ok m := hm
    have hlab : ∀ st2 ∈ fs2, st2.label ≠ st.label := by
      intro st2 h2 hh
      have hnd3 : (st.label :: fs2.map ColStep.label).Nodup := by
        rw [List.map_append] at hnd
        exact hnd.of_append_right
      have hnd4 := List.nodup_cons.mp hnd3
      exact hnd4.1 (hh ▸ List.mem_map_of_mem ColStep.label h2)
    have htag : p.1 = st.label := ColStep.apply_fst T st s p hap
    rw [execC_get_of_labels_ne T fs2 s st.label _ _ hlab hm, ← htag]
    exact dictGet_dictUpd_self r1 p.1 p.2

theorem C2_execute_original_input_witness :
    (([ColStep.hashtag, ColStep.whitespace].map ColStep.label).Nodup ∧
      CollectionJob.execute demoTables [ColStep.hashtag, ColStep.whitespace] "#a\tb" =
        .ok [("hashtag", [("#a", 1)]), ("whitespace", [("\t", 1)])] ∧
      ColStep.hashtag ∈ [ColStep.hashtag, ColStep.whitespace] ∧
      ColStep.apply demoTables ColStep.hashtag "#a\tb" = .ok ("hashtag", [("#a", 1)])) ∧
    dictGet [("hashtag", [("#a", 1)]), ("whitespace", [("\t", 1)])]
      (ColStep.label ColStep.hashtag) = some [("#a", 1)] :=
  ⟨⟨by decide, rfl, by decide, rfl⟩,
    C2_execute_original_input demoTables [ColStep.hashtag, ColStep.whitespace] "#a\tb"
      [("hashtag", [("#a", 1)]), ("whitespace", [("\t", 1)])]
      ColStep.hashtag ("hashtag", [("#a", 1)]) (by decide) rfl (by decide) rfl⟩

/-- C3: for `CleanJob` and `ReplaceJob`, `execute` (and `function`,
which shares the same appends) permanently appends the
whitespace-collapse lambda when `rm_whitespace` is set and the lowercase
lambda when `lower` is set; running `execute` twice with the default
`rm_whitespace=True` leaves two collapse steps in the stored list, and
with both flags off the step list is unchanged.  The collapse step
splits on whitespace runs, rejoins with single spaces and trims the
ends. -/
theorem C3_execute_mutates_step_list (T : Tables) (j : List CleanStep)
    (jr : List RepStep) (v v2 w w2 : PyVal) (rmw lower : Bool) :
    (CleanJob.execute T j v rmw lower).2 =
        j ++ (if rmw then [CleanStep.collapse] else []) ++
          (if lower then [CleanStep.lowerStep] else []) ∧
    (CleanJob.execute T ((CleanJob.execute T j v true false).2) v2 true false).2 =
        j ++ [CleanStep.collapse, CleanStep.collapse] ∧
    (CleanJob.execute T j v false false).2 = j ∧
    CleanJob.function j rmw lower = (CleanJob.execute T j v rmw lower).2 ∧
    (ReplaceJob.execute T jr w rmw lower).2 =
        jr ++ (if rmw then [RepStep.collapse] else []) ++
          (if lower then [RepStep.lowerStep] else []) ∧
    (ReplaceJob.execute T ((ReplaceJob.execute T jr w true false).2) w2 true false).2 =
        jr ++ [RepStep.collapse, RepStep.collapse] ∧
    (ReplaceJob.execute T jr w false false).2 = jr ∧
    ReplaceJob.function jr rmw lower = (ReplaceJob.execute T jr w rmw lower).2 ∧
    CleanStep.apply T CleanStep.collapse " a\t b  " = .ok "a b" := by
  refine ⟨?_, ?_, rfl, rfl, ?_, ?_, rfl, rfl, rfl⟩
  · cases rmw <;> cases lower <;>
      simp [CleanJob.execute, effCleanSteps]
  · simp [CleanJob.execute, effCleanSteps]
  · cases rmw <;> cases lower <;>
      simp [ReplaceJob.execute, effRepSteps]
  · simp [ReplaceJob.execute, effRepSteps]

/-- C4, counterexample: the claim promises that every builder kind
coerces a non-string input to its string representation, but
`ReplaceJob.execute` (whose loop runs `func(string)` with no `str(...)`)
raises a type error on the integer input 5, while `CleanJob.execute`
(whose loop runs `func(str(string))`) does coerce it to `"5"`. -/
theorem C4_claim_counterexample :
    (ReplaceJob.execute demoTables [] (PyVal.int 5) true false).1 =
      .error .typeError ∧
    (Except.error PyError.typeError : Except PyError PyVal) ≠
      .ok (PyVal.str "5") ∧
    (CleanJob.execute demoTables [] (PyVal.int 5) true false).1 =
      .ok (PyVal.str "5") := by
  refine ⟨rfl, ?_, rfl⟩
  intro h
  exact Except.noConfusion h

/-- C4, amended: only the clean builder coerces its input — each step
application wraps the running value in `str(...)`, so running a clean
step list on any value equals running it on the value's string
representation; a clean run with no steps returns the value unchanged
(uncoerced).  The replace and collect builders pass the value through
without coercion, so any non-string input raises a type error at the
first step application. -/
theorem C4_coercion_only_in_clean (T : Tables) (st : CleanStep)
    (rest : List CleanStep) (sr : RepStep) (restr : List RepStep)
    (sc : ColStep) (restc : List ColStep) (v : PyVal) (n : Int) :
    runCleanVal T (st :: rest) v =
        runCleanVal T (st :: rest) (PyVal.str (pyStr v)) ∧
    runCleanVal T [] v = .ok v ∧
    runRepVal T (sr :: restr) (PyVal.int n) = .error .typeError ∧
    CollectionJob.executeVal T (sc :: restc) (PyVal.int n) = .error .typeError :=
  ⟨rfl, rfl, rfl, rfl⟩

/-- C5: the emoji and emoticon steps of the clean and replace builders
traverse the table in reverse declaration order (for a two-entry table
the second-declared pattern is substituted first), while the collect
builder's emoji and emoticon steps iterate in forward declaration order
(on a two-entry table whose entries share a label, the second entry's
count is the one stored, and on overlapping patterns the concrete
results below are exactly the reverse-order/forward-order outcomes). -/
theorem C5_table_iteration_order (E : List (String × String))
    (p1 l1 p2 l2 s : String) :
    CleanStep.apply ⟨[(p1, l1), (p2, l2)], E⟩ CleanStep.emoji s =
      .ok (pyReplaceAll (pyReplaceAll s p2 " ") p1 " ") ∧
    RepStep.apply ⟨[(p1, l1), (p2, l2)], E⟩ RepStep.emoji s =
      .ok (pyReplaceAll (pyReplaceAll s p2 (" " ++ l2 ++ " "))
            p1 (" " ++ l1 ++ " ")) ∧
    CleanStep.apply ⟨E, [("ab", "A"), ("abc", "B")]⟩ CleanStep.emoticon ":abc" =
      .ok ": " ∧
    RepStep.apply ⟨E, [("ab", "A"), ("abc", "B")]⟩ RepStep.emoticon ":abc" =
      .ok ": B " ∧
    ColStep.apply ⟨[("x", "L"), ("y", "L")], E⟩ ColStep.emoji "xyy" =
      .ok ("emoji", [("L", 2)]) ∧
    ColStep.apply ⟨E, [("a", "L"), ("aa", "L")]⟩ (ColStep.emoticon false false)
      "aa" = .ok ("emoticon", [("L", 1)]) :=
  ⟨rfl, rfl, rfl, rfl, rfl, rfl⟩

/-- C6, counterexample: the claim states the replace punctuation
default token is `" TOKEN_PUNCTUATION "`, but the source signature is
`def punctuation(self, replacement=' ')`, so the default substitution
on the input `"!"` yields `" "`, not `" TOKEN_PUNCTUATION "`. -/
theorem C6_claim_counterexample :
    RepStep.punctuationDefault = " " ∧
    RepStep.apply demoTables (RepStep.punctuation RepStep.punctuationDefault) "!" =
      .ok " " ∧
    (" " : String) ≠ " TOKEN_PUNCTUATION " := by
  refine ⟨rfl, rfl, ?_⟩
  decide

/-- C6, amended: the clean punctuation step deletes exactly the
characters of the fixed ASCII set
`!"#$%&\x27()*+,-./:;<=>?@[\]^_\x60\x7b|\x7d~` with no replacement,
while the replace punctuation step substitutes every character that is
neither a word character nor whitespace with the replacement token —
whose default is a single space `" "`, not `" TOKEN_PUNCTUATION "`. -/
theorem C6_punctuation_modes (T : Tables) (c : Char) (repl : String) :
    CleanStep.apply T CleanStep.punctuation (strOf [c]) =
      .ok (if c ∈ claimPunctChars then "" else strOf [c]) ∧
    RepStep.apply T (RepStep.punctuation repl) (strOf [c]) =
      .ok (if pyIsWord c || pyIsSpace c then strOf [c] else repl) ∧
    RepStep.punctuationDefault = " " := by
  refine ⟨?_, ?_, rfl⟩
  · have hmem : c ∈ cleanDelChars ↔ c ∈ claimPunctChars := by
      constructor
      · intro hx
        have hsub : ∀ y ∈ cleanDelChars, y ∈ claimPunctChars := by decide
        exact hsub c hx
      · intro hx
        have hsub : ∀ y ∈ claimPunctChars, y ∈ cleanDelChars := by decide
        exact hsub c hx
    by_cases hc : c ∈ claimPunctChars
    · have hc2 : c ∈ cleanDelChars := hmem.mpr hc
      rw [CleanStep.apply, if_pos hc]
      have hfil : (strOf [c]).toList.filter (fun x => !(decide (x ∈ cleanDelChars))) = [] := by
        show [c].filter (fun x => !(decide (x ∈ cleanDelChars))) = []
        simp [hc2]
      rw [hfil]
      rfl
    · have hc2 : c ∉ cleanDelChars := fun hx => hc (hmem.mp hx)
      rw [CleanStep.apply, if_neg hc]
      have hfil : (strOf [c]).toList.filter (fun x => !(decide (x ∈ cleanDelChars))) = [c] := by
        show [c].filter (fun x => !(decide (x ∈ cleanDelChars))) = [c]
        simp [hc2]
      rw [hfil]
  · rw [RepStep.apply]
    cases hw : pyIsWord c <;> cases hs : pyIsSpace c <;>
      simp [reSubM, scanSubM, punctClassM, hw, hs, strOf]

/-- C7: in collect mode, when two chained steps return the same label,
`execute` stores the later step's dict at that label (so for a colliding
key the later step's count overwrites the earlier one's), while
`batch_execute` sums the two steps' counts for every colliding key
instead of overwriting. -/
theorem C7_label_collision (T : Tables) (st1 st2 : ColStep) (s t : String)
    (c1 c2 : Counter) (m b : ResultMap)
    (h1 : st1.apply T s = .ok (t, c1)) (h2 : st2.apply T s = .ok (t, c2))
    (hm : CollectionJob.execute T [st1, st2] s = .ok m)
    (hb : CollectionJob.batch_execute T [st1, st2] [s] = .ok b) :
    dictGet m t = some c2 ∧ ∀ k, cnt2 b t k = cnt c1 k + cnt c2 k := by
  have hbi : batchInner T s [st1, st2] [] = .ok b := by
    rw [CollectionJob.batch_execute] at hb
    replace hb : (match batchInner T s [st1, st2] [] with
        | .ok r2 => batchGo T [st1, st2] [] r2
        | .error e => (.error e : Except PyError ResultMap)) = .ok b := hb
    rcases hb1 : batchInner T s [st1, st2] [] with e | r1
    · rw [hb1] at hb
      exact Except.noConfusion hb
    · rw [hb1] at hb
      replace hb : Except.ok r1 = Except.ok b := hb
      cases hb
      rfl
  constructor
  · rw [CollectionJob.execute, execC_cons, h1] at hm
    replace hm : execC T [st2] s (dictUpd [] t c1) = .ok m := hm
    rw [execC_cons, h2] at hm
    replace hm : execC T [] s (dictUpd (dictUpd [] t c1) t c2) = .ok m := hm
    rw [execC] at hm
    cases hm
    exact dictGet_dictUpd_self (dictUpd [] t c1) t c2
  · intro k
    have hcnt := batchInner_cnt2 T s [st1, st2] [] b t k hbi
    have hs1 : stepCnt T s t k [st1, st2] =
        (if t = t then cnt c1 k else 0) + stepCnt T s t k [st2] := by
      rw [stepCnt, h1]
    have hs2 : stepCnt T s t k [st2] =
        (if t = t then cnt c2 k else 0) + 0 := by
      rw [stepCnt, h2]
      rfl
    have e0 : cnt2 ([] : ResultMap) t k = 0 := rfl
    rw [hcnt, e0, hs1, hs2, if_pos rfl, if_pos rfl]
    omega

theorem C7_label_collision_witness :
    (ColStep.apply demoTables (ColStep.regexp "a") "aba" =
        .ok ("regexp", [("a", 2)]) ∧
      ColStep.apply demoTables (ColStep.regexp "ab|a") "aba" =
        .ok ("regexp", [("ab", 1), ("a", 1)]) ∧
      CollectionJob.execute demoTables [ColStep.regexp "a", ColStep.regexp "ab|a"]
        "aba" = .ok [("regexp", [("ab", 1), ("a", 1)])] ∧
      CollectionJob.batch_execute demoTables
        [ColStep.regexp "a", ColStep.regexp "ab|a"] ["aba"] =
        .ok [("regexp", [("a", 3), ("ab", 1)])]) ∧
    (dictGet [("regexp", [("ab", 1), ("a", 1)])] "regexp" =
        some [("ab", 1), ("a", 1)] ∧
      cnt2 [("regexp", [("a", 3), ("ab", 1)])] "regexp" "a" =
        cnt [("a", 2)] "a" + cnt [("ab", 1), ("a", 1)] "a") := by
  have h := C7_label_collision demoTables (ColStep.regexp "a") (ColStep.regexp "ab|a")
    "aba" "regexp" [("a", 2)] [("ab", 1), ("a", 1)]
    [("regexp", [("ab", 1), ("a", 1)])] [("regexp", [("a", 3), ("ab", 1)])]
    rfl rfl rfl rfl
  exact ⟨⟨rfl, rfl, rfl, rfl⟩, h.1, h.2 "a"⟩

/-- C8: a function compiled by `function` on a clean or replace builder
is pure with respect to the builder: a call reads the builder's current
step list and mutates nothing, so the state after a call is the state
`function` left behind, a second call on the same input returns the
same output, and the only mutation is the one-time flag-step append
performed when `function` itself ran. -/
theorem C8_compiled_function_pure (T : Tables) (j : List CleanStep)
    (jr : List RepStep) (v w : PyVal) (rmw lower : Bool) :
    ((callCleanFn T (CleanJob.function j rmw lower) v).2 =
        CleanJob.function j rmw lower ∧
      (callCleanFn T ((callCleanFn T (CleanJob.function j rmw lower) v).2) v).1 =
        (callCleanFn T (CleanJob.function j rmw lower) v).1 ∧
      CleanJob.function j rmw lower =
        j ++ (if rmw then [CleanStep.collapse] else []) ++
          (if lower then [CleanStep.lowerStep] else [])) ∧
    ((callRepFn T (ReplaceJob.function jr rmw lower) w).2 =
        ReplaceJob.function jr rmw lower ∧
      (callRepFn T ((callRepFn T (ReplaceJob.function jr rmw lower) w).2) w).1 =
        (callRepFn T (ReplaceJob.function jr rmw lower) w).1 ∧
      ReplaceJob.function jr rmw lower =
        jr ++ (if rmw then [RepStep.collapse] else []) ++
          (if lower then [RepStep.lowerStep] else [])) := by
  refine ⟨⟨rfl, rfl, ?_⟩, rfl, rfl, ?_⟩
  · cases rmw <;> cases lower <;> simp [CleanJob.function, effCleanSteps]
  · cases rmw <;> cases lower <;> simp [ReplaceJob.function, effRepSteps]

/-- C9: the `regexp` chain methods of the clean and collect builders
append a step and return the builder for every pattern string without
inspecting it, so chaining always succeeds; applying the step built
from the syntactically invalid pattern `"("` raises a pattern-syntax
error — on every input, and only when a finalize operation actually
runs the step. -/
theorem C9_regexp_chain_lazy (T : Tables) (j : List CleanStep)
    (fs : List ColStep) (pat s : String) (v : PyVal) :
    CleanJob.regexp j pat = j ++ [CleanStep.regexp pat] ∧
    CollectionJob.regexp fs pat = fs ++ [ColStep.regexp pat] ∧
    CleanStep.apply T (CleanStep.regexp "(") s = .error .patternSyntax ∧
    ColStep.apply T (ColStep.regexp "(") s = .error .patternSyntax ∧
    runCleanVal T [CleanStep.regexp "("] v = .error .patternSyntax ∧
    CollectionJob.execute T [ColStep.regexp "("] s = .error .patternSyntax := by
  have hre : reOk "(" = false := by decide
  refine ⟨rfl, rfl, ?_, ?_, ?_, ?_⟩
  · rw [CleanStep.apply, hre]
    rfl
  · rw [ColStep.apply, hre]
    rfl
  · rw [runCleanVal, CleanStep.apply, hre]
    rfl
  · rw [CollectionJob.execute, execC_cons, ColStep.apply, hre]
    rfl

/-- Along `execC`, keys of the accumulator are never removed. -/
theorem execC_keys_mono (T : Tables) (fs : List ColStep) (s : String)
    (r m : ResultMap) (h : execC T fs s r = .ok m) (t : String)
    (ht : t ∈ keys r) : t ∈ keys m := by
  induction fs generalizing r with
  | nil =>
    rw [execC] at h
    cases h
    exact ht
  | cons st rest ih =>
    rw [execC_cons] at h
    rcases hap : st.apply T s with e | p
    · rw [hap] at h
      cases h
    · rw [hap] at h
      exact ih (dictUpd r p.1 p.2) h ((mem_keys_dictUpd r p.1 t p.2).mpr (Or.inr ht))

/-- Every inner dict reached by `execC` is either inherited from the
accumulator or is the counter of one of the executed steps. -/
theorem execC_val1 (T : Tables) (fs : List ColStep) (s : String)
    (r m : ResultMap) (hr : ∀ p ∈ r, val1 p.2)
    (h : execC T fs s r = .ok m) : ∀ p ∈ m, val1 p.2 := by
  induction fs generalizing r with
  | nil =>
    rw [execC] at h
    cases h
    exact hr
  | cons st rest ih =>
    rw [execC_cons] at h
    rcases hap : st.apply T s with e | p
    · rw [hap] at h
      cases h
    · rw [hap] at h
      refine ih (dictUpd r p.1 p.2) (fun q hq => ?_) h
      rcases mem_dictUpd r p.1 p.2 q hq with hq2 | hq2
      · exact hr q hq2
      · rw [hq2]
        exact ColStep.apply_val1 T st s p hap

/-- C10: the ResultMap of a successful `execute` contains an entry for
the label of every chained step (even a step with no matches, whose
inner dict is then empty), and every count stored in any inner dict is
at least 1 — zero counts never appear. -/
theorem C10_execute_labels_and_counts (T : Tables) (fs : List ColStep)
    (s : String) (m : ResultMap)
    (hm : CollectionJob.execute T fs s = .ok m) :
    (∀ st ∈ fs, st.label ∈ keys m) ∧ (∀ p ∈ m, ∀ q ∈ p.2, 1 ≤ q.2) := by
  constructor
  · intro st hst
    rcases List.append_of_mem hst with ⟨fs1, fs2, rfl⟩
    rw [CollectionJob.execute, execC_append] at hm
    rcases h1 : execC T fs1 s [] with e | r1
    · rw [h1] at hm
      exact Except.noConfusion hm
    · rw [h1] at hm
      replace hm : execC T (st :: fs2) s r1 = .ok m := hm
      rw [execC_cons] at hm
      rcases hap : st.apply T s with e | p
      · rw [hap] at hm
        exact Except.noConfusion hm
      · rw [hap] at hm
        replace hm : execC T fs2 s (dictUpd r1 p.1 p.2) = .ok m := hm
        refine execC_keys_mono T fs2 s _ m hm st.label ?_
        refine (mem_keys_dictUpd r1 p.1 st.label p.2).mpr (Or.inl ?_)
        exact (ColStep.apply_fst T st s p hap).symm
  · intro p hp
    exact execC_val1 T fs s [] m (fun q hq => absurd hq (List.not_mem_nil q)) hm p hp

theorem C10_execute_labels_and_counts_witness :
    CollectionJob.execute demoTables [ColStep.hashtag, ColStep.emoji] "q" =
      .ok [("hashtag", []), ("emoji", [])] ∧
    ((∀ st ∈ [ColStep.hashtag, ColStep.emoji],
        st.label ∈ keys [("hashtag", ([] : Counter)), ("emoji", ([] : Counter))]) ∧
      (∀ p ∈ [("hashtag", ([] : Counter)), ("emoji", ([] : Counter))],
        ∀ q ∈ p.2, 1 ≤ q.2)) :=
  ⟨rfl,
    C10_execute_labels_and_counts demoTables [ColStep.hashtag, ColStep.emoji] "q"
      [("hashtag", []), ("emoji", [])] rfl⟩

end Dobbi
